import Mathlib

/-!
# Verification of the bounded concurrent web crawler

Shallow embedding of `src/async/examples/web_crawler.py`.

The embedding has three layers:

* a model of the URL-library routines the source delegates to
  (`urllib.parse.urljoin`, `urldefrag`, `urlparse`, `pathlib.Path.suffix`,
  CPython 3.11 semantics, restricted to the fields `filter_url` reads:
  `scheme`, `netloc`, `path`, `query`, `fragment`; the `params` component
  split of `urlparse` is not modelled, so URL strings using `;`-parameters
  are outside the model) together with `UrlFilterer.filter_url`;
* the pure state-transforming core of the `Crawler` class
  (`put_todo`, `on_found_links`, `parse_links`, `crawl`): under asyncio's
  cooperative single-threaded scheduler these blocks run without hitting a
  real suspension point (an unbounded `asyncio.Queue.put` never blocks), so
  each is one atomic state update;
* a small-step run semantics `CrawlStep`: a worker atomically takes an
  address from the queue (`todo.get`), and atomically finishes one
  (`crawl` up to `task_done`), successfully or through the
  swallowed-exception path of `process_one`.
-/

namespace WebCrawler

/-! ## URL parsing model (CPython `urllib.parse`) -/

/-- The components returned by `urllib.parse.urlsplit`. -/
structure UrlParts where
  scheme : String
  netloc : String
  path : String
  query : String
  fragment : String
  deriving DecidableEq

/-- Characters allowed in a URL scheme (CPython `scheme_chars`). -/
def schemeChar (c : Char) : Bool :=
  c.isAlphanum || c == '+' || c == '-' || c == '.'

/-- ASCII lowercasing, as `str.lower()` acts on the (ASCII-only) scheme
characters that pass the `schemeChar` guard. -/
def asciiLower (c : Char) : Char :=
  match c with
  | 'A' => 'a' | 'B' => 'b' | 'C' => 'c' | 'D' => 'd' | 'E' => 'e' | 'F' => 'f'
  | 'G' => 'g' | 'H' => 'h' | 'I' => 'i' | 'J' => 'j' | 'K' => 'k' | 'L' => 'l'
  | 'M' => 'm' | 'N' => 'n' | 'O' => 'o' | 'P' => 'p' | 'Q' => 'q' | 'R' => 'r'
  | 'S' => 's' | 'T' => 't' | 'U' => 'u' | 'V' => 'v' | 'W' => 'w' | 'X' => 'x'
  | 'Y' => 'y' | 'Z' => 'z'
  | c => c

/-- Scheme extraction step of `urlsplit`: `url.find(':')` must be positive,
the first character alphabetic, and every character before the colon a
scheme character; the scheme is lowercased. -/
def splitSchemeChars (l : List Char) : Option (List Char × List Char) :=
  let pre := l.takeWhile (fun c => c != ':')
  if pre.length < l.length ∧ pre ≠ [] ∧ (pre.headD ' ').isAlpha ∧ pre.all schemeChar then
    some (pre.map asciiLower, l.drop (pre.length + 1))
  else none

/-- Netloc extraction step of `urlsplit`: after a leading `//`, the netloc
runs until the next `/`, `?` or `#`. -/
def splitNetlocChars (l : List Char) : List Char × List Char :=
  match l with
  | '/' :: '/' :: rest =>
    let n := rest.takeWhile (fun c => c != '/' && c != '?' && c != '#')
    (n, rest.drop n.length)
  | _ => ([], l)

/-- `l.split(sep, 1)` when `sep` occurs, else `(l, [])`. -/
def splitOnFirst (sep : Char) : List Char → List Char × List Char
  | [] => ([], [])
  | c :: cs =>
    if c = sep then ([], cs)
    else
      let r := splitOnFirst sep cs
      (c :: r.1, r.2)

/-- `str.split(sep)` (no maxsplit): always returns at least one piece. -/
def splitChar (sep : Char) : List Char → List (List Char)
  | [] => [[]]
  | c :: cs =>
    let r := splitChar sep cs
    if c = sep then [] :: r
    else (c :: r.headD []) :: r.tail

/-- `sep.join(pieces)`. -/
def joinSep (sep : Char) : List (List Char) → List Char
  | [] => []
  | [a] => a
  | a :: rest => a ++ sep :: joinSep sep rest

/-- `urllib.parse.urlsplit(url, scheme=default)`: extract scheme (falling
back to `default`), netloc, fragment (after the first `#`), query (after
the first `?` of the pre-fragment part), leaving the path. -/
def urlsplitD (default : String) (url : String) : UrlParts :=
  let l := url.toList
  let sr := match splitSchemeChars l with
    | some p => p
    | none => (default.toList, l)
  let nr := splitNetlocChars sr.2
  let uf := splitOnFirst '#' nr.2
  let pq := splitOnFirst '?' uf.1
  { scheme := String.mk sr.1, netloc := String.mk nr.1,
    path := String.mk pq.1, query := String.mk pq.2, fragment := String.mk uf.2 }

/-- `urllib.parse.urlunsplit` (without the params component). -/
def urlunsplit (p : UrlParts) : String :=
  let url0 := p.path
  let url1 :=
    if p.netloc ≠ "" ∨ url0.toList.take 2 = ['/', '/'] then
      "//" ++ p.netloc ++ (if url0 ≠ "" ∧ url0.toList.take 1 ≠ ['/'] then "/" ++ url0 else url0)
    else url0
  let url2 := if p.scheme ≠ "" then p.scheme ++ ":" ++ url1 else url1
  let url3 := if p.query ≠ "" then url2 ++ "?" ++ p.query else url2
  if p.fragment ≠ "" then url3 ++ "#" ++ p.fragment else url3

/-- `urllib.parse.urldefrag`: when a `#` is present, reparse and
reserialize with an empty fragment. -/
def urldefrag (url : String) : String × String :=
  if ('#' : Char) ∈ url.toList then
    let p := urlsplitD "" url
    (urlunsplit { p with fragment := "" }, p.fragment)
  else (url, "")

/-- CPython 3.11 `urllib.parse.uses_relative`. -/
def usesRelative : List String :=
  ["", "ftp", "http", "gopher", "nntp", "imap", "wais", "file", "https",
   "shttp", "mms", "prospero", "rtsp", "rtsps", "rtspu", "sftp", "svn",
   "svn+ssh", "ws", "wss"]

/-- CPython 3.11 `urllib.parse.uses_netloc`. -/
def usesNetloc : List String :=
  ["", "ftp", "http", "gopher", "nntp", "telnet", "imap", "wais", "file",
   "mms", "https", "shttp", "snews", "prospero", "rtsp", "rtsps", "rtspu",
   "rsync", "svn", "svn+ssh", "sftp", "nfs", "git", "git+ssh", "ws", "wss"]

/-- `segments[1:-1] = filter(None, segments[1:-1])`: drop empty pieces
from all but the first and last positions. -/
def filterMiddle : List (List Char) → List (List Char)
  | [] => []
  | [a] => [a]
  | a :: rest => a :: ((rest.dropLast.filter (fun s => !s.isEmpty)) ++ [rest.getLastD []])

/-- One step of dot-segment resolution as CPython implements it: `..`
pops (ignoring underflow), `.` is skipped, anything else is kept. -/
def resolveStep (acc : List (List Char)) (seg : List Char) : List (List Char) :=
  if seg = ['.', '.'] then acc.dropLast
  else if seg = ['.'] then acc
  else acc ++ [seg]

/-- The part of `urljoin` after the scheme test: authority inheritance,
empty-path inheritance, and relative-path merging. -/
def joinResolve (b r : UrlParts) : String :=
  if r.scheme ∈ usesNetloc ∧ r.netloc ≠ "" then
    urlunsplit r
  else
    let netloc := if r.scheme ∈ usesNetloc then b.netloc else r.netloc
    if r.path = "" then
      let query := if r.query = "" then b.query else r.query
      urlunsplit { scheme := r.scheme, netloc := netloc, path := b.path,
                   query := query, fragment := r.fragment }
    else
      let segments :=
        if r.path.toList.take 1 = ['/'] then splitChar '/' r.path.toList
        else
          let baseParts := splitChar '/' b.path.toList
          let baseParts :=
            if baseParts.getLast? ≠ some [] then baseParts.dropLast else baseParts
          filterMiddle (baseParts ++ splitChar '/' r.path.toList)
      let resolved := segments.foldl resolveStep []
      let resolved :=
        if segments.getLast? = some ['.'] ∨ segments.getLast? = some ['.', '.'] then
          resolved ++ [[]]
        else resolved
      let joined := joinSep '/' resolved
      let path := if joined = [] then ['/'] else joined
      urlunsplit { scheme := r.scheme, netloc := netloc, path := String.mk path,
                   query := r.query, fragment := r.fragment }

/-- `urllib.parse.urljoin(base, url)`: empty-argument short-circuits, the
scheme compatibility test (returning `url` unchanged when the schemes
differ or the scheme does not use relative resolution), then resolution. -/
def urljoin (base url : String) : String :=
  if base = "" then url
  else if url = "" then base
  else
    let b := urlsplitD "" base
    let r := urlsplitD b.scheme url
    if r.scheme ≠ b.scheme ∨ r.scheme ∉ usesRelative then url
    else joinResolve b r

/-! ## `pathlib.Path(path).suffix` model (POSIX flavor) -/

/-- The characters strictly after the last `.`, or `none` when no `.`
occurs. -/
def afterLastDot : List Char → Option (List Char)
  | [] => none
  | c :: cs =>
    if ('.' : Char) ∈ cs then afterLastDot cs
    else if c = '.' then some cs
    else none

/-- `pathlib.PurePosixPath(path).name`: the last path component, after
dropping empty and `.` components. -/
def pathName (path : String) : List Char :=
  ((splitChar '/' path.toList).filter (fun c => !c.isEmpty && c != ['.'])).getLastD []

/-- `pathlib.Path(path).suffix`: the extension `name[i:]` where `i` is the
last dot position, when `0 < i < len(name) - 1`; else the empty string. -/
def pathSuffix (path : String) : String :=
  let name := pathName path
  match afterLastDot name with
  | none => ""
  | some post =>
    if post ≠ [] ∧ post.length + 1 < name.length then String.mk ('.' :: post) else ""

/-! ## `UrlFilterer` -/

/-- The three optional allow-lists of `UrlFilterer.__init__`
(`None` = unrestricted). -/
structure UrlFilterer where
  allowed_domains : Option (List String)
  allowed_schemes : Option (List String)
  allowed_filetypes : Option (List String)

/-- `allowed is not None and x not in allowed` — the rejection test each
allow-list applies. -/
def rejects (allow : Option (List String)) (x : String) : Bool :=
  match allow with
  | none => false
  | some l => !(l.contains x)

/-- `UrlFilterer.filter_url`: resolve against the base, strip the
fragment, then apply the scheme, domain and file-extension allow-lists in
order; return the resolved fragment-free URL when all pass. -/
def UrlFilterer.filter_url (f : UrlFilterer) (base url : String) : Option String :=
  let url1 := urljoin base url
  let url2 := (urldefrag url1).1
  let parsed := urlsplitD "" url2
  if rejects f.allowed_schemes parsed.scheme then none
  else if rejects f.allowed_domains parsed.netloc then none
  else if rejects f.allowed_filetypes (pathSuffix parsed.path) then none
  else some url2

/-- The URL a candidate denotes once resolved against the base and
stripped of its fragment — the value `filter_url` either rejects or
returns. -/
def resolvedUrl (base url : String) : String :=
  (urldefrag (urljoin base url)).1

/-! ## `UrlParser` (link extraction) -/

/-- `UrlParser.handle_starttag`: for an `<a>` tag, each `href` attribute
value is filtered against the base and, when accepted, added to the
found-links set (modelled as a duplicate-free list in insertion order). -/
def handle_starttag (filt : String → String → Option String) (base : String)
    (found : List String) (tag : String) (attrs : List (String × String)) :
    List String :=
  if tag ≠ "a" then found
  else
    attrs.foldl (fun acc p =>
      if p.1 ≠ "href" then acc
      else
        match filt base p.2 with
        | some u => if u ∈ acc then acc else acc ++ [u]
        | none => acc) found

/-- `Crawler.parse_links`: feed the document to a fresh `UrlParser` and
collect its `found_links`. The HTML tokenizer itself is the standard
library's; it is abstracted as `tagsOf`, the stream of start-tag events
(tag name with attribute/value pairs) of a document. -/
def parse_links (filt : String → String → Option String)
    (tagsOf : String → List (String × List (String × String)))
    (base text : String) : List String :=
  (tagsOf text).foldl
    (fun acc te => handle_starttag filt base acc te.1 te.2) []

/-! ## `Crawler` state -/

/-- The collaborators and configuration handed to `Crawler.__init__`:
`fetch` models `client.get(url, follow_redirects=True)` returning the
final (post-redirect) URL and the body, or `none` when the request
raises; `tagsOf` models the HTML tokenizer; `filt` is the injected
`filter_url` callable. -/
structure CrawlerConfig where
  fetch : String → Option (String × String)
  tagsOf : String → List (String × List (String × String))
  filt : String → String → Option String
  workers : Nat
  limit : Nat

/-- The mutable state of a `Crawler` object. `todo` is the queue contents
(front first); `inflight` the addresses a worker has taken but not yet
marked done (so `asyncio.Queue.join` waits while `todo ++ inflight ≠ []`);
`enqueued` is a ghost audit trail recording every address ever enqueued,
in order — `put_todo` appends to it exactly when it appends to `todo`. -/
structure CrawlerState where
  todo : List String
  seen : List String
  done : List String
  total : Nat
  limit : Nat
  inflight : List String
  enqueued : List String
  deriving DecidableEq

/-- `Crawler.put_todo`: drop the address when `total >= limit`, else
increment the budget and enqueue. -/
def put_todo (u : String) (s : CrawlerState) : CrawlerState :=
  if s.limit ≤ s.total then s
  else { s with total := s.total + 1, todo := s.todo ++ [u],
                enqueued := s.enqueued ++ [u] }

/-- `Crawler.on_found_links`: `new = urls - seen`, record `new` as seen,
then `put_todo` each novel address. The whole block runs without a real
suspension point, hence as one atomic update. -/
def on_found_links (urls : List String) (s : CrawlerState) : CrawlerState :=
  let new := urls.filter (fun u => decide (u ∉ s.seen))
  let s1 := { s with seen := s.seen ++ new }
  new.foldl (fun t u => put_todo u t) s1

/-- The value Python returns from `on_found_links`: the function body has
no `return` statement, so the caller receives `None`, modelled as `none`
in the position where the spec's `propose` contract expects the accepted
subset. -/
def on_found_linksRet (urls : List String) (s : CrawlerState) :
    Option (List String) × CrawlerState :=
  (none, on_found_links urls s)

/-- `Crawler.crawl`: fetch (propagating the exception as `none`), extract
links with the final post-redirect URL `response.url` as base, admit
them, then add the crawled address to `done`. -/
def crawl (cfg : CrawlerConfig) (url : String) (s : CrawlerState) :
    Option CrawlerState :=
  match cfg.fetch url with
  | none => none
  | some ft =>
    let links := parse_links cfg.filt cfg.tagsOf ft.1 ft.2
    let s1 := on_found_links links s
    some (if url ∈ s1.done then s1 else { s1 with done := s1.done ++ [url] })

/-- `Crawler.__init__`: stores the configuration and empty collections.
It performs no validation whatsoever (in particular none on `workers` or
`limit`), so the embedding is the constant-`ok` function into the error
monad a validating constructor would use. -/
def Crawler.init (cfg : CrawlerConfig) : Except String CrawlerState :=
  Except.ok { todo := [], seen := [], done := [], total := 0,
              limit := cfg.limit, inflight := [], enqueued := [] }

/-- The freshly constructed state. -/
def initState (cfg : CrawlerConfig) : CrawlerState :=
  { todo := [], seen := [], done := [], total := 0,
    limit := cfg.limit, inflight := [], enqueued := [] }

/-- The state after the first line of `Crawler.run`, which primes the
queue: `on_found_links(self.start_urls)` where
`self.start_urls = set(urls)`. -/
def seedState (cfg : CrawlerConfig) (urls : List String) : CrawlerState :=
  on_found_links urls.dedup (initState cfg)

/-- The number of unfinished queue items `asyncio.Queue.join` waits on:
enqueued-but-not-taken plus taken-but-not-marked-done. -/
def outstanding (s : CrawlerState) : Nat :=
  s.todo.length + s.inflight.length

/-- Small-step run semantics. Each constructor is one block the asyncio
scheduler runs without interleaving: a worker's `todo.get()` (enabled
while a worker is free), and the completion of `process_one` on a taken
address — either `crawl` succeeding, or the blanket `except` swallowing
the fetch failure — each ending in `task_done()`. -/
inductive CrawlStep (cfg : CrawlerConfig) : CrawlerState → CrawlerState → Prop
  | get (s : CrawlerState) (u : String) (rest : List String) :
      s.todo = u :: rest →
      s.inflight.length < cfg.workers →
      CrawlStep cfg s { s with todo := rest, inflight := u :: s.inflight }
  | finish_ok (s t : CrawlerState) (u : String) :
      u ∈ s.inflight →
      crawl cfg u { s with inflight := s.inflight.erase u } = some t →
      CrawlStep cfg s t
  | finish_err (s : CrawlerState) (u : String) :
      u ∈ s.inflight →
      cfg.fetch u = none →
      CrawlStep cfg s { s with inflight := s.inflight.erase u }

/-- The states a run can be in after seeding, for some interleaving. -/
def Reachable (cfg : CrawlerConfig) (urls : List String)
    (s : CrawlerState) : Prop :=
  Relation.ReflTransGen (CrawlStep cfg) (seedState cfg urls) s

/-- The run invariant: the budget never exceeds the limit, the enqueue
history is duplicate-free and covered by the seen-set, queued and
in-flight addresses are accounted for (with multiplicity) by the enqueue
history, and done addresses are seen and neither queued nor in flight. -/
structure Inv (cfg : CrawlerConfig) (s : CrawlerState) : Prop where
  total_le : s.total ≤ s.limit
  limit_eq : s.limit = cfg.limit
  enqueued_nodup : s.enqueued.Nodup
  enqueued_seen : ∀ u ∈ s.enqueued, u ∈ s.seen
  hist : ∀ u, s.todo.count u + s.inflight.count u ≤ s.enqueued.count u
  done_seen : ∀ u ∈ s.done, u ∈ s.seen
  done_fresh : ∀ u ∈ s.done, u ∉ s.todo ∧ u ∉ s.inflight

/-- Termination measure: remaining budget plus outstanding work. A `get`
step keeps it constant (shrinking the queue), every finish step strictly
decreases it, and admissions conserve it (each enqueue spends one unit of
budget). -/
def crawlMeasure (s : CrawlerState) : Nat :=
  (s.limit - s.total) + s.todo.length + s.inflight.length

/-- Fixture: a configuration whose fetch always fails. -/
def failCfg : CrawlerConfig :=
  { fetch := fun _ => none, tagsOf := fun _ => [], filt := fun _ _ => none,
    workers := 1, limit := 5 }

/-- Fixture: a configuration with an empty worker pool. -/
def zeroWorkerCfg : CrawlerConfig :=
  { fetch := fun _ => none, tagsOf := fun _ => [], filt := fun _ _ => none,
    workers := 0, limit := 5 }

/-- Fixture: fetching `http://a/p` redirects to `http://b/q`, whose page
holds one relative link `r`; the filter is unrestricted. -/
def redirectCfg : CrawlerConfig :=
  { fetch := fun v => if v = "http://a/p" then some ("http://b/q", "page") else none,
    tagsOf := fun t => if t = "page" then [("a", [("href", "r")])] else [],
    filt := (UrlFilterer.mk none none none).filter_url,
    workers := 1, limit := 10 }

/-- Fixture: a mid-crawl state with one address already seen and a budget
of one remaining admission. -/
def gateDemoState : CrawlerState :=
  { todo := [], seen := ["b"], done := [], total := 0, limit := 1,
    inflight := [], enqueued := [] }

/-- Fixture: the state of a `failCfg` run after its single worker has
taken the seed address `x` off the queue. -/
def errDemoState : CrawlerState :=
  { todo := [], seen := ["x"], done := [], total := 1, limit := 5,
    inflight := ["x"], enqueued := ["x"] }

/-! ## Admission-control lemmas -/

theorem put_todo_of_le (u : String) (s : CrawlerState) (h : s.limit ≤ s.total) :
    put_todo u s = s := by
  simp [put_todo, h]

theorem put_todo_of_lt (u : String) (s : CrawlerState) (h : s.total < s.limit) :
    put_todo u s = { s with total := s.total + 1, todo := s.todo ++ [u],
                            enqueued := s.enqueued ++ [u] } := by
  simp [put_todo, Nat.not_le.mpr h]

theorem foldl_put_spec (l : List String) (s : CrawlerState) :
    l.foldl (fun t u => put_todo u t) s =
      { s with todo := s.todo ++ l.take (s.limit - s.total),
               enqueued := s.enqueued ++ l.take (s.limit - s.total),
               total := s.total + (l.take (s.limit - s.total)).length } := by
  induction l generalizing s with
  | nil => simp
  | cons u tl ih =>
    rw [List.foldl_cons]
    by_cases h : s.limit ≤ s.total
    · have h0 : s.limit - s.total = 0 := Nat.sub_eq_zero_of_le h
      rw [put_todo_of_le u s h, ih, h0]
      simp
    · push_neg at h
      have h1 : s.limit - s.total = (s.limit - (s.total + 1)) + 1 := by omega
      rw [put_todo_of_lt u s h, ih, h1, List.take_succ_cons]
      simp [Nat.add_assoc, Nat.add_comm 1]

theorem on_found_links_spec (urls : List String) (s : CrawlerState) :
    on_found_links urls s =
      { s with
        seen := s.seen ++ urls.filter (fun u => decide (u ∉ s.seen)),
        todo := s.todo ++
          (urls.filter (fun u => decide (u ∉ s.seen))).take (s.limit - s.total),
        enqueued := s.enqueued ++
          (urls.filter (fun u => decide (u ∉ s.seen))).take (s.limit - s.total),
        total := s.total +
          ((urls.filter (fun u => decide (u ∉ s.seen))).take (s.limit - s.total)).length } := by
  simp only [on_found_links]
  rw [foldl_put_spec]

theorem on_found_links_seen (urls : List String) (s : CrawlerState) :
    (on_found_links urls s).seen =
      s.seen ++ urls.filter (fun u => decide (u ∉ s.seen)) := by
  rw [on_found_links_spec]

theorem on_found_links_todo (urls : List String) (s : CrawlerState) :
    (on_found_links urls s).todo =
      s.todo ++ (urls.filter (fun u => decide (u ∉ s.seen))).take (s.limit - s.total) := by
  rw [on_found_links_spec]

theorem on_found_links_enqueued (urls : List String) (s : CrawlerState) :
    (on_found_links urls s).enqueued =
      s.enqueued ++ (urls.filter (fun u => decide (u ∉ s.seen))).take (s.limit - s.total) := by
  rw [on_found_links_spec]

theorem on_found_links_total (urls : List String) (s : CrawlerState) :
    (on_found_links urls s).total =
      s.total + ((urls.filter (fun u => decide (u ∉ s.seen))).take (s.limit - s.total)).length := by
  rw [on_found_links_spec]

theorem on_found_links_done (urls : List String) (s : CrawlerState) :
    (on_found_links urls s).done = s.done := by
  rw [on_found_links_spec]

theorem on_found_links_inflight (urls : List String) (s : CrawlerState) :
    (on_found_links urls s).inflight = s.inflight := by
  rw [on_found_links_spec]

theorem on_found_links_limit (urls : List String) (s : CrawlerState) :
    (on_found_links urls s).limit = s.limit := by
  rw [on_found_links_spec]

/-! ## Found-links sets are duplicate-free -/

theorem append_singleton_nodup {u : String} {acc : List String}
    (h : acc.Nodup) (hu : u ∉ acc) : (acc ++ [u]).Nodup := by
  simp [List.nodup_append, h, hu]

theorem handle_starttag_nodup (filt : String → String → Option String)
    (base tag : String) (attrs : List (String × String)) (found : List String)
    (h : found.Nodup) : (handle_starttag filt base found tag attrs).Nodup := by
  rw [handle_starttag]
  split
  · exact h
  · induction attrs generalizing found with
    | nil => exact h
    | cons p ps ih =>
      rw [List.foldl_cons]
      apply ih
      split
      · exact h
      · cases hm : filt base p.2 with
        | none => exact h
        | some u =>
          by_cases hu : u ∈ found
          · simpa [hu] using h
          · simpa [hu] using append_singleton_nodup h hu

theorem parse_links_nodup (filt : String → String → Option String)
    (tagsOf : String → List (String × List (String × String)))
    (base text : String) : (parse_links filt tagsOf base text).Nodup := by
  suffices h : ∀ (l : List (String × List (String × String))) (acc : List String),
      acc.Nodup →
      (l.foldl (fun acc te => handle_starttag filt base acc te.1 te.2) acc).Nodup by
    exact h _ _ List.nodup_nil
  intro l
  induction l with
  | nil => exact fun _ h => h
  | cons te ts ih =>
    intro acc h
    rw [List.foldl_cons]
    exact ih _ (handle_starttag_nodup filt base te.1 te.2 acc h)

/-! ## Invariant preservation -/

theorem inv_initState (cfg : CrawlerConfig) : Inv cfg (initState cfg) := by
  constructor <;> simp [initState]

theorem inv_on_found_links (cfg : CrawlerConfig) (urls : List String)
    (s : CrawlerState) (hn : urls.Nodup) (h : Inv cfg s) :
    Inv cfg (on_found_links urls s) := by
  have hnewnd : (urls.filter (fun u => decide (u ∉ s.seen))).Nodup := hn.filter _
  have hnew_not_seen :
      ∀ u ∈ urls.filter (fun u => decide (u ∉ s.seen)), u ∉ s.seen := by
    intro u hu
    simpa using (List.mem_filter.mp hu).2
  have htk_new :
      ∀ u ∈ (urls.filter (fun u => decide (u ∉ s.seen))).take (s.limit - s.total),
        u ∈ urls.filter (fun u => decide (u ∉ s.seen)) :=
    fun u hu => List.take_subset _ _ hu
  have htknd :
      ((urls.filter (fun u => decide (u ∉ s.seen))).take (s.limit - s.total)).Nodup :=
    (List.take_sublist _ _).nodup hnewnd
  have htklen :
      ((urls.filter (fun u => decide (u ∉ s.seen))).take (s.limit - s.total)).length ≤
        s.limit - s.total :=
    List.length_take_le _ _
  constructor
  · rw [on_found_links_total, on_found_links_limit]
    have := h.total_le
    omega
  · rw [on_found_links_limit]
    exact h.limit_eq
  · rw [on_found_links_enqueued]
    exact h.enqueued_nodup.append htknd
      (fun u hu1 hu2 => hnew_not_seen u (htk_new u hu2) (h.enqueued_seen u hu1))
  · rw [on_found_links_enqueued, on_found_links_seen]
    intro u hu
    rcases List.mem_append.mp hu with h1 | h1
    · exact List.mem_append_left _ (h.enqueued_seen u h1)
    · exact List.mem_append_right _ (htk_new u h1)
  · intro v
    rw [on_found_links_todo, on_found_links_inflight, on_found_links_enqueued,
        List.count_append, List.count_append]
    have := h.hist v
    omega
  · rw [on_found_links_done, on_found_links_seen]
    intro u hu
    exact List.mem_append_left _ (h.done_seen u hu)
  · rw [on_found_links_done, on_found_links_todo, on_found_links_inflight]
    intro u hu
    obtain ⟨h1, h2⟩ := h.done_fresh u hu
    refine ⟨?_, h2⟩
    rw [List.mem_append]
    rintro (h3 | h3)
    · exact h1 h3
    · exact hnew_not_seen u (htk_new u h3) (h.done_seen u hu)

theorem inv_seed (cfg : CrawlerConfig) (urls : List String) :
    Inv cfg (seedState cfg urls) :=
  inv_on_found_links cfg _ _ (List.nodup_dedup urls) (inv_initState cfg)

theorem inv_erase (cfg : CrawlerConfig) (s : CrawlerState) (u : String)
    (h : Inv cfg s) : Inv cfg { s with inflight := s.inflight.erase u } := by
  constructor
  · exact h.total_le
  · exact h.limit_eq
  · exact h.enqueued_nodup
  · exact h.enqueued_seen
  · intro v
    have h1 := h.hist v
    have h2 : (s.inflight.erase u).count v ≤ s.inflight.count v := by
      rw [List.count_erase]
      split <;> omega
    show s.todo.count v + (s.inflight.erase u).count v ≤ s.enqueued.count v
    omega
  · exact h.done_seen
  · intro v hv
    obtain ⟨h1, h2⟩ := h.done_fresh v hv
    exact ⟨h1, fun h3 => h2 (List.mem_of_mem_erase h3)⟩

theorem inflight_mem_facts (cfg : CrawlerConfig) (s : CrawlerState) (u : String)
    (h : Inv cfg s) (hu : u ∈ s.inflight) :
    u ∈ s.enqueued ∧ u ∉ s.todo ∧ s.inflight.count u = 1 := by
  have h1 : 0 < s.inflight.count u := List.count_pos_iff.mpr hu
  have h2 := h.hist u
  have h3 : s.enqueued.count u ≤ 1 :=
    List.nodup_iff_count_le_one.mp h.enqueued_nodup u
  exact ⟨List.count_pos_iff.mp (by omega), List.count_eq_zero.mp (by omega),
    by omega⟩

theorem inv_done_add (cfg : CrawlerConfig) (s : CrawlerState) (u : String)
    (h : Inv cfg s) (hseen : u ∈ s.seen) (htodo : u ∉ s.todo)
    (hinf : u ∉ s.inflight) :
    Inv cfg (if u ∈ s.done then s else { s with done := s.done ++ [u] }) := by
  split
  · exact h
  · constructor
    · exact h.total_le
    · exact h.limit_eq
    · exact h.enqueued_nodup
    · exact h.enqueued_seen
    · exact h.hist
    · intro v hv
      rcases List.mem_append.mp hv with h1 | h1
      · exact h.done_seen v h1
      · rw [List.mem_singleton.mp h1]
        exact hseen
    · intro v hv
      rcases List.mem_append.mp hv with h1 | h1
      · exact h.done_fresh v h1
      · rw [List.mem_singleton.mp h1]
        exact ⟨htodo, hinf⟩

theorem inv_step (cfg : CrawlerConfig) (s t : CrawlerState)
    (h : Inv cfg s) (hs : CrawlStep cfg s t) : Inv cfg t := by
  cases hs with
  | get u rest htodo hw =>
    constructor
    · exact h.total_le
    · exact h.limit_eq
    · exact h.enqueued_nodup
    · exact h.enqueued_seen
    · intro v
      have h1 := h.hist v
      rw [htodo] at h1
      show rest.count v + (u :: s.inflight).count v ≤ s.enqueued.count v
      by_cases huv : u = v
      · subst huv
        simp [List.count_cons] at h1 ⊢
        omega
      · simp [List.count_cons, huv] at h1 ⊢
        omega
    · exact h.done_seen
    · intro v hv
      have h2 := h.done_fresh v hv
      rw [htodo] at h2
      have hne : v ≠ u := fun he => h2.1 (he ▸ List.mem_cons_self u rest)
      exact ⟨fun h3 => h2.1 (List.mem_cons_of_mem _ h3),
             fun h3 => (List.mem_cons.mp h3).elim hne h2.2⟩
  | finish_err u hu hf => exact inv_erase cfg s u h
  | finish_ok t u hu hc =>
    obtain ⟨hmem, hntodo, hcnt⟩ := inflight_mem_facts cfg s u h hu
    have h' : Inv cfg { s with inflight := s.inflight.erase u } :=
      inv_erase cfg s u h
    simp only [crawl] at hc
    split at hc
    · exact absurd hc (by simp)
    · next ft hfe =>
      rw [Option.some_inj] at hc
      subst hc
      have hnd := parse_links_nodup cfg.filt cfg.tagsOf ft.1 ft.2
      have h1 : Inv cfg (on_found_links (parse_links cfg.filt cfg.tagsOf ft.1 ft.2)
          { s with inflight := s.inflight.erase u }) :=
        inv_on_found_links cfg _ _ hnd h'
      apply inv_done_add cfg _ u h1
      · rw [on_found_links_seen]
        exact List.mem_append_left _ (h.enqueued_seen u hmem)
      · rw [on_found_links_todo, List.mem_append]
        rintro (h3 | h3)
        · exact hntodo h3
        · have h4 := List.take_subset _ _ h3
          have h5 := (List.mem_filter.mp h4).2
          simp at h5
          exact h5 (h.enqueued_seen u hmem)
      · rw [on_found_links_inflight]
        show u ∉ s.inflight.erase u
        intro h3
        have h6 : (s.inflight.erase u).count u = 0 := by
          rw [List.count_erase_self, hcnt]
        exact absurd (List.count_pos_iff.mpr h3) (by omega)

theorem inv_reachable (cfg : CrawlerConfig) (urls : List String)
    (s : CrawlerState) (h : Reachable cfg urls s) : Inv cfg s := by
  have h' : Relation.ReflTransGen (CrawlStep cfg) (seedState cfg urls) s := h
  clear h
  induction h' with
  | refl => exact inv_seed cfg urls
  | tail hab hbc ih => exact inv_step cfg _ _ ih hbc

/-! ## Termination machinery -/

theorem step_measure (cfg : CrawlerConfig) (s t : CrawlerState)
    (hs : CrawlStep cfg s t) :
    (crawlMeasure t = crawlMeasure s ∧ t.todo.length + 1 = s.todo.length) ∨
    crawlMeasure t + 1 = crawlMeasure s := by
  cases hs with
  | get u rest htodo hw =>
    left
    constructor
    · show (s.limit - s.total) + rest.length + (u :: s.inflight).length =
        (s.limit - s.total) + s.todo.length + s.inflight.length
      rw [htodo]
      simp [List.length_cons]
      omega
    · show rest.length + 1 = s.todo.length
      rw [htodo, List.length_cons]
  | finish_err u hu hf =>
    right
    show (s.limit - s.total) + s.todo.length + (s.inflight.erase u).length + 1 =
      (s.limit - s.total) + s.todo.length + s.inflight.length
    rw [List.length_erase_of_mem hu]
    have h1 : 0 < s.inflight.length := List.length_pos.mpr (List.ne_nil_of_mem hu)
    omega
  | finish_ok t u hu hc =>
    right
    simp only [crawl] at hc
    split at hc
    · exact absurd hc (by simp)
    · next ft hfe =>
      rw [Option.some_inj] at hc
      subst hc
      have hinf : 0 < s.inflight.length := List.length_pos.mpr (List.ne_nil_of_mem hu)
      have herase := List.length_erase_of_mem hu
      have hm1 : ∀ (a : CrawlerState) (c : Prop) [Decidable c],
          crawlMeasure (if c then a else { a with done := a.done ++ [u] }) =
            crawlMeasure a := by
        intro a c _
        split <;> rfl
      rw [hm1]
      rw [crawlMeasure, crawlMeasure, on_found_links_total, on_found_links_todo,
          on_found_links_inflight, on_found_links_limit]
      have htk := List.length_take_le
        (CrawlerState.limit { s with inflight := s.inflight.erase u } -
          CrawlerState.total { s with inflight := s.inflight.erase u })
        ((parse_links cfg.filt cfg.tagsOf ft.1 ft.2).filter
          (fun v => decide (v ∉ CrawlerState.seen { s with inflight := s.inflight.erase u })))
      simp only [List.length_append] at htk ⊢
      omega

theorem crawlStep_no_infinite (cfg : CrawlerConfig)
    (f : ℕ → CrawlerState) (hf : ∀ n, CrawlStep cfg (f n) (f (n + 1))) :
    False := by
  have hmono : ∀ n, crawlMeasure (f (n + 1)) ≤ crawlMeasure (f n) := by
    intro n
    rcases step_measure cfg _ _ (hf n) with ⟨h1, _⟩ | h1 <;> omega
  have hbound : ∀ n, crawlMeasure (f n) ≤ crawlMeasure (f 0) := by
    intro n
    induction n with
    | zero => exact Nat.le_refl _
    | succ n ih => exact Nat.le_trans (hmono n) ih
  have hlen : ∀ n, (f n).todo.length ≤ crawlMeasure (f n) := by
    intro n
    rw [crawlMeasure]
    omega
  have hnu : ∀ n,
      crawlMeasure (f (n + 1)) * (crawlMeasure (f 0) + 1) + (f (n + 1)).todo.length <
      crawlMeasure (f n) * (crawlMeasure (f 0) + 1) + (f n).todo.length := by
    intro n
    rcases step_measure cfg _ _ (hf n) with ⟨h1, h2⟩ | h1
    · rw [h1]
      omega
    · have hlt : (f (n + 1)).todo.length < crawlMeasure (f 0) + 1 := by
        have := Nat.le_trans (hlen (n + 1)) (hbound (n + 1))
        omega
      calc crawlMeasure (f (n + 1)) * (crawlMeasure (f 0) + 1) + (f (n + 1)).todo.length
          < crawlMeasure (f (n + 1)) * (crawlMeasure (f 0) + 1) + (crawlMeasure (f 0) + 1) := by
            omega
        _ = (crawlMeasure (f (n + 1)) + 1) * (crawlMeasure (f 0) + 1) := by
            rw [Nat.succ_mul]
        _ ≤ crawlMeasure (f n) * (crawlMeasure (f 0) + 1) := by
            exact Nat.mul_le_mul_right _ (by omega)
        _ ≤ crawlMeasure (f n) * (crawlMeasure (f 0) + 1) + (f n).todo.length :=
            Nat.le_add_right _ _
  have hdesc : ∀ n,
      crawlMeasure (f n) * (crawlMeasure (f 0) + 1) + (f n).todo.length + n ≤
      crawlMeasure (f 0) * (crawlMeasure (f 0) + 1) + (f 0).todo.length := by
    intro n
    induction n with
    | zero => omega
    | succ n ih =>
      have := hnu n
      omega
  have := hdesc (crawlMeasure (f 0) * (crawlMeasure (f 0) + 1) + (f 0).todo.length + 1)
  omega

theorem stuck_drained (cfg : CrawlerConfig) (hw : 1 ≤ cfg.workers)
    (s : CrawlerState) (hstuck : ∀ t, ¬ CrawlStep cfg s t) :
    outstanding s = 0 := by
  rw [outstanding]
  cases hinf : s.inflight with
  | cons u rest =>
    have hu : u ∈ s.inflight := by
      rw [hinf]
      exact List.mem_cons_self u rest
    cases hfe : cfg.fetch u with
    | none => exact absurd (CrawlStep.finish_err s u hu hfe) (hstuck _)
    | some ft =>
      refine absurd (CrawlStep.finish_ok s ?_ u hu ?_) (hstuck _)
      · exact (if u ∈ (on_found_links (parse_links cfg.filt cfg.tagsOf ft.1 ft.2)
            { s with inflight := s.inflight.erase u }).done
          then on_found_links (parse_links cfg.filt cfg.tagsOf ft.1 ft.2)
            { s with inflight := s.inflight.erase u }
          else { on_found_links (parse_links cfg.filt cfg.tagsOf ft.1 ft.2)
              { s with inflight := s.inflight.erase u } with
            done := (on_found_links (parse_links cfg.filt cfg.tagsOf ft.1 ft.2)
              { s with inflight := s.inflight.erase u }).done ++ [u] })
      · simp only [crawl, hfe]
  | nil =>
    cases htodo : s.todo with
    | nil => simp [htodo, hinf]
    | cons u rest =>
      refine absurd (CrawlStep.get s u rest htodo ?_) (hstuck _)
      rw [hinf]
      simpa using hw

/-! ## URL model lemmas -/

theorem toList_append (a b : String) : (a ++ b).toList = a.toList ++ b.toList :=
  rfl

theorem asciiLower_ne_hash (c : Char) (hc : schemeChar c = true) :
    asciiLower c ≠ '#' := by
  unfold asciiLower
  split
  all_goals first
    | decide
    | (intro h; subst h; exact absurd hc (by decide))

theorem mem_splitOnFirst_fst {sep c : Char} {l : List Char}
    (h : c ∈ (splitOnFirst sep l).1) : c ∈ l ∧ c ≠ sep := by
  induction l with
  | nil => simp [splitOnFirst] at h
  | cons a as ih =>
    simp only [splitOnFirst] at h
    by_cases ha : a = sep
    · simp [ha] at h
    · rw [if_neg ha] at h
      rcases List.mem_cons.mp h with h1 | h1
      · subst h1
        exact ⟨List.mem_cons_self _ _, ha⟩
      · obtain ⟨h2, h3⟩ := ih h1
        exact ⟨List.mem_cons_of_mem _ h2, h3⟩

theorem mem_splitOnFirst_snd {sep c : Char} {l : List Char}
    (h : c ∈ (splitOnFirst sep l).2) : c ∈ l := by
  induction l with
  | nil => simp [splitOnFirst] at h
  | cons a as ih =>
    simp only [splitOnFirst] at h
    by_cases ha : a = sep
    · rw [if_pos ha] at h
      exact List.mem_cons_of_mem _ h
    · rw [if_neg ha] at h
      exact List.mem_cons_of_mem _ (ih h)

theorem splitNetlocChars_fst_no_hash (l : List Char) :
    ('#' : Char) ∉ (splitNetlocChars l).1 := by
  unfold splitNetlocChars
  split
  · intro hmem
    have := List.mem_takeWhile_imp hmem
    simp at this
  · simp

theorem splitSchemeChars_no_hash {l p1 p2 : List Char}
    (h : splitSchemeChars l = some (p1, p2)) : ('#' : Char) ∉ p1 := by
  simp only [splitSchemeChars] at h
  split at h
  · next hcond =>
    rw [Option.some_inj] at h
    intro hmem
    injection h with h1 h2
    rw [← h1] at hmem
    rcases List.mem_map.mp hmem with ⟨c, hc, hlow⟩
    have hsc : schemeChar c = true :=
      List.all_eq_true.mp hcond.2.2.2 c hc
    exact asciiLower_ne_hash c hsc hlow
  · exact absurd h (by simp)

theorem urlsplitD_scheme_no_hash (d url : String) (hd : ('#' : Char) ∉ d.toList) :
    ('#' : Char) ∉ (urlsplitD d url).scheme.toList := by
  simp only [urlsplitD]
  cases hs : splitSchemeChars url.toList with
  | some p =>
    show ('#' : Char) ∉ p.1
    exact @splitSchemeChars_no_hash url.toList p.1 p.2 (by rw [hs])
  | none =>
    show ('#' : Char) ∉ d.toList
    exact hd

theorem urlsplitD_netloc_no_hash (d url : String) :
    ('#' : Char) ∉ (urlsplitD d url).netloc.toList := by
  simp only [urlsplitD]
  exact splitNetlocChars_fst_no_hash _

theorem urlsplitD_path_no_hash (d url : String) :
    ('#' : Char) ∉ (urlsplitD d url).path.toList := by
  simp only [urlsplitD]
  intro hmem
  have h1 := (mem_splitOnFirst_fst hmem).1
  exact (mem_splitOnFirst_fst h1).2 rfl

theorem urlsplitD_query_no_hash (d url : String) :
    ('#' : Char) ∉ (urlsplitD d url).query.toList := by
  simp only [urlsplitD]
  intro hmem
  have h1 := mem_splitOnFirst_snd hmem
  exact (mem_splitOnFirst_fst h1).2 rfl

theorem urlunsplit_no_hash (p : UrlParts)
    (hs : ('#' : Char) ∉ p.scheme.toList) (hn : ('#' : Char) ∉ p.netloc.toList)
    (hp : ('#' : Char) ∉ p.path.toList) (hq : ('#' : Char) ∉ p.query.toList)
    (hf : p.fragment = "") :
    ('#' : Char) ∉ (urlunsplit p).toList := by
  have hslash : ('#' : Char) ∉ "//".toList := by decide
  have hslash1 : ('#' : Char) ∉ "/".toList := by decide
  have hcolon : ('#' : Char) ∉ ":".toList := by decide
  have hqm : ('#' : Char) ∉ "?".toList := by decide
  rw [urlunsplit, hf]
  simp only [ne_eq, not_true_eq_false, if_false, ite_false]
  split_ifs <;>
    simp_all [toList_append, List.mem_append]

theorem urldefrag_no_hash (x : String) :
    ('#' : Char) ∉ ((urldefrag x).1).toList := by
  rw [urldefrag]
  split
  · exact urlunsplit_no_hash _
      (urlsplitD_scheme_no_hash "" x (by decide))
      (urlsplitD_netloc_no_hash "" x)
      (urlsplitD_path_no_hash "" x)
      (urlsplitD_query_no_hash "" x)
      rfl
  · next h => exact h

theorem urldefrag_of_no_hash (u : String) (h : ('#' : Char) ∉ u.toList) :
    urldefrag u = (u, "") := by
  rw [urldefrag, if_neg h]

/-! ## `pathSuffix` lemmas -/

theorem afterLastDot_eq_none {l : List Char} (h : ('.' : Char) ∉ l) :
    afterLastDot l = none := by
  induction l with
  | nil => rfl
  | cons c cs ih =>
    have hc : c ≠ '.' := fun he => h (he ▸ List.mem_cons_self _ _)
    have hcs : ('.' : Char) ∉ cs := fun hm => h (List.mem_cons_of_mem _ hm)
    rw [afterLastDot, if_neg hcs, if_neg hc]

theorem splitChar_ne_nil (sep : Char) (l : List Char) : splitChar sep l ≠ [] := by
  cases l with
  | nil => simp [splitChar]
  | cons c cs =>
    simp only [splitChar]
    split <;> simp

theorem mem_splitChar {sep c : Char} {l part : List Char}
    (hp : part ∈ splitChar sep l) (hc : c ∈ part) : c ∈ l := by
  induction l generalizing part with
  | nil =>
    simp [splitChar] at hp
    subst hp
    simp at hc
  | cons a as ih =>
    simp only [splitChar] at hp
    by_cases ha : a = sep
    · rw [if_pos ha] at hp
      rcases List.mem_cons.mp hp with h1 | h1
      · subst h1
        simp at hc
      · exact List.mem_cons_of_mem _ (ih h1 hc)
    · rw [if_neg ha] at hp
      rcases List.mem_cons.mp hp with h1 | h1
      · subst h1
        rcases List.mem_cons.mp hc with h2 | h2
        · subst h2
          exact List.mem_cons_self _ _
        · have hhead : (splitChar sep as).headD [] ∈ splitChar sep as := by
            cases hsc : splitChar sep as with
            | nil => exact absurd hsc (splitChar_ne_nil sep as)
            | cons x xs => simp
          exact List.mem_cons_of_mem _ (ih hhead h2)
      · have hmem : part ∈ splitChar sep as := List.mem_of_mem_tail h1
        exact List.mem_cons_of_mem _ (ih hmem hc)

theorem pathName_subset (path : String) (c : Char) (hc : c ∈ pathName path) :
    c ∈ path.toList := by
  rw [pathName] at hc
  have hm := List.getLastD_mem_cons
    ((splitChar '/' path.toList).filter (fun p => !p.isEmpty && p != ['.'])) []
  rcases List.mem_cons.mp hm with h1 | h1
  · rw [h1] at hc
    simp at hc
  · exact mem_splitChar (List.mem_of_mem_filter h1) hc

theorem pathSuffix_of_no_dot (path : String) (h : ('.' : Char) ∉ path.toList) :
    pathSuffix path = "" := by
  have hnd : ('.' : Char) ∉ pathName path := fun hm => h (pathName_subset path _ hm)
  rw [pathSuffix, afterLastDot_eq_none hnd]

/-! ## Claim theorems -/

/-- At or beyond the budget limit, a step changes neither the enqueue
history nor the budget counter nor the limit. -/
theorem step_at_limit (cfg : CrawlerConfig) (b c : CrawlerState)
    (hs : CrawlStep cfg b c) (h : b.limit ≤ b.total) :
    c.enqueued = b.enqueued ∧ c.total = b.total ∧ c.limit = b.limit := by
  cases hs with
  | get u rest h1 h2 => exact ⟨rfl, rfl, rfl⟩
  | finish_err u hu hf => exact ⟨rfl, rfl, rfl⟩
  | finish_ok t u hu hc =>
    simp only [crawl] at hc
    split at hc
    · exact absurd hc (by simp)
    · next ft hfe =>
      rw [Option.some_inj] at hc
      subst hc
      have hz : b.limit - b.total = 0 := Nat.sub_eq_zero_of_le h
      refine ⟨?_, ?_, ?_⟩ <;>
        (split <;>
          simp [on_found_links_enqueued, on_found_links_total,
            on_found_links_limit, hz])

/-- Claim C1: along every run and every interleaving of discoveries, the
budget counter `total` never exceeds the configured limit, and once
`total` equals the limit no address is ever enqueued into the frontier
again, even a newly discovered one. -/
theorem budget_respected (cfg : CrawlerConfig) (urls : List String)
    (s : CrawlerState) (h : Reachable cfg urls s) :
    s.total ≤ cfg.limit ∧
    (∀ t, s.total = cfg.limit → Relation.ReflTransGen (CrawlStep cfg) s t →
      t.enqueued = s.enqueued) := by
  have hinv := inv_reachable cfg urls s h
  refine ⟨hinv.limit_eq ▸ hinv.total_le, ?_⟩
  intro t htot hchain
  have hlim := hinv.limit_eq
  suffices hsuf : t.enqueued = s.enqueued ∧ t.total = s.total ∧ t.limit = s.limit
    from hsuf.1
  induction hchain with
  | refl => exact ⟨rfl, rfl, rfl⟩
  | tail hab hbc ih =>
    obtain ⟨ih1, ih2, ih3⟩ := ih
    have hb := step_at_limit cfg _ _ hbc (by omega)
    obtain ⟨e1, e2, e3⟩ := hb
    exact ⟨e1.trans ih1, e2.trans ih2, e3.trans ih3⟩

/-- Witness for C1 at a concrete seeded run. -/
theorem budget_respected_witness :
    (seedState failCfg ["x"]).total ≤ failCfg.limit :=
  (budget_respected failCfg ["x"] (seedState failCfg ["x"])
    Relation.ReflTransGen.refl).1

/-- Claim C2: over a run's lifetime each distinct address is enqueued
into the frontier at most once — the enqueue history is duplicate-free;
the seen-set check and insertion of `on_found_links` run as one atomic
block under the cooperative scheduler. -/
theorem no_duplicate_admission (cfg : CrawlerConfig) (urls : List String)
    (s : CrawlerState) (h : Reachable cfg urls s) : s.enqueued.Nodup :=
  (inv_reachable cfg urls s h).enqueued_nodup

/-- Witness for C2: even duplicated seeds are enqueued once. -/
theorem no_duplicate_admission_witness :
    (seedState failCfg ["x", "x"]).enqueued.Nodup :=
  no_duplicate_admission failCfg ["x", "x"] _ Relation.ReflTransGen.refl

/-- Claim C3: the run terminates — no infinite sequence of crawl steps
exists (the budget bounds every run, closed link graph or not), and with
at least one worker a state admitting no step has no outstanding work, so
`todo.join` returns and no worker is left blocked. -/
theorem run_terminates (cfg : CrawlerConfig) (hw : 1 ≤ cfg.workers) :
    (∀ f : ℕ → CrawlerState, ¬ ∀ n, CrawlStep cfg (f n) (f (n + 1))) ∧
    (∀ s, (∀ t, ¬ CrawlStep cfg s t) → outstanding s = 0) :=
  ⟨fun f hf => crawlStep_no_infinite cfg f hf,
   fun s hs => stuck_drained cfg hw s hs⟩

/-- Witness for C3 at the stuck empty state. -/
theorem run_terminates_witness : outstanding (initState failCfg) = 0 :=
  (run_terminates failCfg (by decide)).2 (initState failCfg) (fun t hstep => by
    cases hstep with
    | get u rest h1 h2 => exact absurd h1 (by simp [initState])
    | finish_ok t u hu hc => exact absurd hu (by simp [initState])
    | finish_err u hu hf => exact absurd hu (by simp [initState]))

/-- Claim C4: a batch of proposals is recorded in the seen-set in full;
the novel addresses are enqueued only up to the remaining budget (at the
limit everything novel is silently dropped — seen but never enqueued),
and below the limit `put_todo` increments the budget and enqueues. -/
theorem admission_budget_gate (urls : List String) (s : CrawlerState) :
    (on_found_links urls s).seen =
      s.seen ++ urls.filter (fun u => decide (u ∉ s.seen)) ∧
    (on_found_links urls s).todo =
      s.todo ++ (urls.filter (fun u => decide (u ∉ s.seen))).take (s.limit - s.total) ∧
    (on_found_links urls s).enqueued =
      s.enqueued ++ (urls.filter (fun u => decide (u ∉ s.seen))).take (s.limit - s.total) ∧
    (s.limit ≤ s.total →
      (on_found_links urls s).todo = s.todo ∧
      (on_found_links urls s).total = s.total ∧
      (on_found_links urls s).enqueued = s.enqueued) ∧
    (s.total < s.limit → ∀ u : String,
      put_todo u s = { s with total := s.total + 1, todo := s.todo ++ [u],
                              enqueued := s.enqueued ++ [u] }) := by
  refine ⟨on_found_links_seen urls s, on_found_links_todo urls s,
    on_found_links_enqueued urls s, fun hle => ?_, fun hlt u => put_todo_of_lt u s hlt⟩
  have hz : s.limit - s.total = 0 := Nat.sub_eq_zero_of_le hle
  refine ⟨?_, ?_, ?_⟩ <;>
    simp [on_found_links_todo, on_found_links_total, on_found_links_enqueued, hz]

/-- Witness for C4: with one unit of budget left, of the two novel
proposals one is enqueued and the other is dropped yet seen. -/
theorem admission_budget_gate_witness :
    (on_found_links ["b", "c", "d"] gateDemoState).seen = ["b", "c", "d"] ∧
    (on_found_links ["b", "c", "d"] gateDemoState).todo = ["c"] ∧
    (on_found_links ["b", "c", "d"] gateDemoState).enqueued = ["c"] := by
  have h := admission_budget_gate ["b", "c", "d"] gateDemoState
  exact ⟨h.1.trans (by decide), h.2.1.trans (by decide), h.2.2.1.trans (by decide)⟩

/-- Claim C5 fails on the code: `on_found_links` has no `return`
statement, so the caller receives `None` — not the subset of proposed
addresses actually enqueued, which here is the nonempty `["a"]`. -/
theorem propose_returns_none_counterexample :
    (on_found_linksRet ["a"] (initState failCfg)).1 = none ∧
    (on_found_linksRet ["a"] (initState failCfg)).2.enqueued = ["a"] ∧
    (on_found_linksRet ["a"] (initState failCfg)).1 ≠
      some ((on_found_linksRet ["a"] (initState failCfg)).2.enqueued) := by
  exact ⟨rfl, by decide, by decide⟩

/-- Claim C5 (amended): the admission operation returns `None`; the
subset actually enqueued by the call is not returned but is exactly the
novel proposals admitted before the budget ran out, appended to the
enqueue history. -/
theorem propose_accepted_subset (urls : List String) (s : CrawlerState) :
    (on_found_linksRet urls s).1 = none ∧
    (on_found_linksRet urls s).2.enqueued =
      s.enqueued ++
        (urls.filter (fun u => decide (u ∉ s.seen))).take (s.limit - s.total) :=
  ⟨rfl, on_found_links_enqueued urls s⟩

/-- Claim C6: `filter_url` resolves the candidate against the base and
strips the fragment, returns `none` exactly when one of the configured
allow-lists rejects the result (an unrestricted `None` list, as in the
third conjunct, rejects nothing), otherwise returns the resolved
fragment-free address; a resolved path without a dot has the empty
extension, the value an empty string in the extension allow-list
matches. -/
theorem filter_url_spec (f : UrlFilterer) (base url : String) :
    (f.filter_url base url = none ↔
      (rejects f.allowed_schemes (urlsplitD "" (resolvedUrl base url)).scheme = true ∨
       rejects f.allowed_domains (urlsplitD "" (resolvedUrl base url)).netloc = true ∨
       rejects f.allowed_filetypes
         (pathSuffix (urlsplitD "" (resolvedUrl base url)).path) = true)) ∧
    (f.filter_url base url = none ∨
      f.filter_url base url = some (resolvedUrl base url)) ∧
    (UrlFilterer.mk none none none).filter_url base url =
      some (resolvedUrl base url) ∧
    (('.' : Char) ∉ ((urlsplitD "" (resolvedUrl base url)).path).toList →
      pathSuffix (urlsplitD "" (resolvedUrl base url)).path = "") := by
  refine ⟨?_, ?_, ?_, fun h => pathSuffix_of_no_dot _ h⟩
  · simp only [UrlFilterer.filter_url, resolvedUrl]
    split_ifs with h1 h2 h3 <;> simp [*]
  · simp only [UrlFilterer.filter_url, resolvedUrl]
    split_ifs with h1 h2 h3 <;> simp
  · simp [UrlFilterer.filter_url, resolvedUrl, rejects]

/-- Witness for C6: a disallowed extension is rejected, and an
extensionless resolved path has empty suffix. -/
theorem filter_url_spec_witness :
    (UrlFilterer.mk (some ["a"]) (some ["http", "https"])
        (some [".html", ""])).filter_url "http://a/b" "c.pdf" = none ∧
    pathSuffix (urlsplitD "" (resolvedUrl "http://a/b" "sub/")).path = "" := by
  constructor
  · exact (filter_url_spec
      (UrlFilterer.mk (some ["a"]) (some ["http", "https"]) (some [".html", ""]))
      "http://a/b" "c.pdf").1.mpr (by decide)
  · exact (filter_url_spec (UrlFilterer.mk none none none)
      "http://a/b" "sub/").2.2.2 (by decide)

/-- Claim C7: `crawl` feeds link extraction and scope filtering with the
final post-redirect URL returned by the fetch — not the requested
address — as the resolution base. -/
theorem crawl_uses_final_url (cfg : CrawlerConfig) (u : String)
    (s : CrawlerState) (fin text : String)
    (hf : cfg.fetch u = some (fin, text)) :
    crawl cfg u s =
      some (if u ∈ (on_found_links (parse_links cfg.filt cfg.tagsOf fin text) s).done
        then on_found_links (parse_links cfg.filt cfg.tagsOf fin text) s
        else { on_found_links (parse_links cfg.filt cfg.tagsOf fin text) s with
                 done := (on_found_links
                   (parse_links cfg.filt cfg.tagsOf fin text) s).done ++ [u] }) := by
  simp only [crawl, hf]

/-- Witness for C7: requesting `http://a/p` redirects to `http://b/q`;
the discovered relative link `r` resolves against the final URL, so
`http://b/r` (not `http://a/r`) is recorded. -/
theorem crawl_uses_final_url_witness :
    redirectCfg.fetch "http://a/p" = some ("http://b/q", "page") ∧
    (crawl redirectCfg "http://a/p" (initState redirectCfg)).map
      CrawlerState.seen = some ["http://b/r"] := by
  constructor
  · rfl
  · rw [crawl_uses_final_url redirectCfg "http://a/p" (initState redirectCfg)
      "http://b/q" "page" rfl]
    decide

/-- Claim C8: a fetch failure is contained by `process_one`: the
finishing step still exists (the worker loop and the crawl go on), the
failed address is not added to the done-set, is not re-enqueued or
retried, stays counted against the budget, and contributes no links. -/
theorem pipeline_error_contained (cfg : CrawlerConfig) (urls : List String)
    (s : CrawlerState) (u : String) (hr : Reachable cfg urls s)
    (hu : u ∈ s.inflight) (hf : cfg.fetch u = none) :
    CrawlStep cfg s { s with inflight := s.inflight.erase u } ∧
    ({ s with inflight := s.inflight.erase u }).done = s.done ∧
    u ∉ s.done ∧
    ({ s with inflight := s.inflight.erase u }).todo = s.todo ∧
    u ∉ s.todo ∧
    u ∉ s.inflight.erase u ∧
    ({ s with inflight := s.inflight.erase u }).total = s.total ∧
    ({ s with inflight := s.inflight.erase u }).seen = s.seen ∧
    ({ s with inflight := s.inflight.erase u }).enqueued = s.enqueued := by
  have hinv := inv_reachable cfg urls s hr
  obtain ⟨hmem, hntodo, hcnt⟩ := inflight_mem_facts cfg s u hinv hu
  refine ⟨CrawlStep.finish_err s u hu hf, rfl, ?_, rfl, hntodo, ?_, rfl, rfl, rfl⟩
  · intro hdone
    exact (hinv.done_fresh u hdone).2 hu
  · intro h3
    have h6 : (s.inflight.erase u).count u = 0 := by
      rw [List.count_erase_self, hcnt]
    exact absurd (List.count_pos_iff.mpr h3) (by omega)

/-- Witness for C8: in the always-failing configuration, after the worker
takes the seed, the error-swallowing step applies and the address is
neither done nor re-queued. -/
theorem pipeline_error_contained_witness :
    CrawlStep failCfg errDemoState
      { errDemoState with inflight := errDemoState.inflight.erase "x" } ∧
    "x" ∉ errDemoState.done ∧ "x" ∉ errDemoState.todo := by
  have hr : Reachable failCfg ["x"] errDemoState :=
    Relation.ReflTransGen.single
      (CrawlStep.get (seedState failCfg ["x"]) "x" [] (by decide) (by decide))
  have h := pipeline_error_contained failCfg ["x"] errDemoState "x" hr
    (by decide) rfl
  exact ⟨h.1, h.2.2.1, h.2.2.2.2.1⟩

/-- Claim C9 fails on the code: `Crawler.__init__` performs no
configuration validation — a worker count of zero is accepted without any
error being raised. -/
theorem init_accepts_invalid_workers :
    zeroWorkerCfg.workers = 0 ∧
    Crawler.init zeroWorkerCfg = Except.ok (initState zeroWorkerCfg) :=
  ⟨rfl, rfl⟩

/-- Claim C9 (amended): the constructor accepts any worker count without
validation, and a run configured with zero workers can never take a step,
so a seeded nonempty frontier never drains — the run hangs in
`todo.join` rather than surfacing a configuration error. -/
theorem zero_workers_hang (cfg : CrawlerConfig) (s : CrawlerState)
    (hw : cfg.workers = 0) (hin : s.inflight = []) :
    Crawler.init cfg = Except.ok (initState cfg) ∧
    (∀ t, ¬ CrawlStep cfg s t) ∧
    (s.todo ≠ [] → outstanding s ≠ 0) := by
  refine ⟨rfl, ?_, ?_⟩
  · intro t hstep
    cases hstep with
    | get u rest h1 h2 =>
      rw [hw] at h2
      exact absurd h2 (by omega)
    | finish_ok t u hu hc =>
      rw [hin] at hu
      simp at hu
    | finish_err u hu hf =>
      rw [hin] at hu
      simp at hu
  · intro hne
    rw [outstanding]
    cases htodo : s.todo with
    | nil => exact absurd htodo hne
    | cons a as => simp

/-- Witness for C9's amended statement with zero workers and one seed. -/
theorem zero_workers_hang_witness :
    Crawler.init zeroWorkerCfg = Except.ok (initState zeroWorkerCfg) ∧
    outstanding (seedState zeroWorkerCfg ["http://a/"]) ≠ 0 := by
  have h := zero_workers_hang zeroWorkerCfg
    (seedState zeroWorkerCfg ["http://a/"]) rfl (by decide)
  exact ⟨h.1, h.2.2 (by decide)⟩

/-- Claim C10 fails on the code: with an unrestricted filter and the
relative base `dir/x`, the accepted output `dir/y` is re-resolved against
the base on a second pass and becomes `dir/dir/y`, so re-filtering an
accepted output does not return it unchanged. -/
theorem filter_url_not_idempotent :
    (UrlFilterer.mk none none none).filter_url "dir/x" "y" = some "dir/y" ∧
    (UrlFilterer.mk none none none).filter_url "dir/x" "dir/y" =
      some "dir/dir/y" ∧
    (UrlFilterer.mk none none none).filter_url "dir/x" "dir/y" ≠
      some "dir/y" := by
  exact ⟨by decide, by decide, by decide⟩

/-- Claim C10 (amended): `filter_url` is stable on an accepted output `u`
whenever re-resolving `u` against the base is the identity (as for
normal-form absolute URLs): accepted outputs never contain `#`, so the
defragmentation is the identity and the allow-list checks repeat
verbatim; for relative references re-resolution can change the address,
as the counterexample shows. -/
theorem filter_url_idem (f : UrlFilterer) (base cand u : String)
    (h : f.filter_url base cand = some u) (hj : urljoin base u = u) :
    f.filter_url base u = some u := by
  simp only [UrlFilterer.filter_url] at h ⊢
  split_ifs at h with h1 h2 h3
  rw [Option.some_inj] at h
  subst h
  have hnh : ('#' : Char) ∉ ((urldefrag (urljoin base cand)).1).toList :=
    urldefrag_no_hash (urljoin base cand)
  have hv1 : (urldefrag ((urldefrag (urljoin base cand)).1)).1 =
      (urldefrag (urljoin base cand)).1 := by
    rw [urldefrag_of_no_hash _ hnh]
  rw [hj, hv1, if_neg h1, if_neg h2, if_neg h3]

/-- Witness for C10's amended statement: the absolute accepted output
`http://a/c` re-filters to itself. -/
theorem filter_url_idem_witness :
    (UrlFilterer.mk none none none).filter_url "http://a/b" "http://a/c" =
      some "http://a/c" :=
  filter_url_idem (UrlFilterer.mk none none none) "http://a/b" "c"
    "http://a/c" (by decide) (by decide)

end WebCrawler
